import Mathlib

/-!
Verification of the Windows directory-discovery subsystem
(`src/win32/findfile.c` of libgit2).

Paths are modelled as `List Char` (one element per wide character; the
UTF-16/UTF-8 conversion `git_win32_path_to_utf8` is modelled as the identity
on code points, which is faithful for the ASCII paths all claims are about).
Fixed-size native buffers become lists plus explicit capacity arguments;
machine sizes are `Nat` with explicit `% 2 ^ 32` where the C code does DWORD
arithmetic.  Platform primitives (`_wgetenv`, `_waccess`,
`ExpandEnvironmentStringsW`, the registry API) are modelled as explicit inputs
with their documented behaviour.
-/

/-- `MAX_PATH` on Windows. -/
def MAX_PATH : Nat := 260

/-- The `REG_SZ` registry value type tag. -/
def REG_SZ : Nat := 1

/-- Backslash-to-forward-slash rewriting of a single character, as done by
`git_path_mkposix` (a plain character substitution). -/
def posixChar (c : Char) : Char := if c = '\\' then '/' else c

/-- `git_path_mkposix`: rewrite every backslash to a forward slash.  No other
normalization is performed. -/
def git_path_mkposix (p : List Char) : List Char := p.map posixChar

/-- `win32_path_to_8` (findfile.c:37): convert a native path to UTF-8 and
rewrite backslashes to forward slashes.  The encoding conversion is modelled
as the identity on code points. -/
def win32_path_to_8 (p : List Char) : List Char := git_path_mkposix p

/-- Modelled from the spec: `git_str_set` (str.c is not under src/) replaces
the whole content of the output string with the given content. -/
def git_str_set (_old p : List Char) : List Char := p

/-- Modelled from the spec: `git_str_clear` empties the output string. -/
def git_str_clear (_old : List Char) : List Char := []

/-- Modelled from the spec: `git_str_join out GIT_PATH_LIST_SEPARATOR out b`
appends `b` to the list, joined with the `;` path-list separator; when the
list is still empty the result is just `b`. -/
def git_str_join (a b : List Char) : List Char :=
  if a = [] then b else a ++ ';' :: b

/-- A delimiter-joined Search Path List built from the given entries in
order, with the `;` path-list separator between consecutive entries. -/
def joinPathList : List (List Char) → List Char
  | [] => []
  | [x] => x
  | x :: xs => x ++ ';' :: joinPathList xs

/-! ## PATH-String Walker (`win32_walkpath`, findfile.c:52) -/

/-- `term = (*path == L'"') ? *path++ : L';'` (findfile.c:60): the first
character decides the terminator; an opening quote is consumed. -/
def wpTerm (path : List Char) : Char × List Char :=
  match path with
  | [] => (';', [])
  | c :: r => if c = '"' then ('"', r) else (';', c :: r)

/-- The copy loop of `win32_walkpath` (findfile.c:62-63): copy characters
into the destination until the string ends, the terminator is reached, or
the remaining budget (`buflen` after the initial decrement) is exhausted.
Returns the copied characters and the uncopied remainder of the input. -/
def wpCopy : List Char → Char → Nat → List Char × List Char
  | [], _, _ => ([], [])
  | c :: r, term, budget =>
    if c = term then ([], c :: r)
    else if budget = 0 then ([], c :: r)
    else
      let p := wpCopy r term (budget - 1)
      (c :: p.1, p.2)

/-- The skip loop of `win32_walkpath` (findfile.c:67-68): skip over any run
of terminator / `;` characters. -/
def wpSkip : List Char → Char → List Char
  | [], _ => []
  | c :: r, term => if c = term ∨ c = ';' then wpSkip r term else c :: r

/-- `win32_walkpath` (findfile.c:52-71).  Returns the entry written to the
destination buffer and the advanced cursor, `none` standing for the NULL
("no progress", exhausted) sentinel.  The C pointer comparison
`path != base` holds exactly when at least one character was consumed, i.e.
when the final cursor is strictly shorter than the input.  A zero `buflen`
trips the `GIT_ASSERT_ARG` and returns NULL without writing the buffer. -/
def win32_walkpath (path : List Char) (buflen : Nat) : List Char × Option (List Char) :=
  if buflen = 0 then ([], none)
  else
    let t := wpTerm path
    let c := wpCopy t.2 t.1 (buflen - 1)
    let p3 := wpSkip c.2 t.1
    (c.1, if p3.length < path.length then some p3 else none)

/-- Repeated walker calls, fuelled (each successful call strictly shortens
the cursor, so `path.length + 1` fuel is always enough): the sequence of
entries produced before the exhausted sentinel is returned. -/
def walkEntriesAux (buflen : Nat) : Nat → List Char → List (List Char)
  | 0, _ => []
  | fuel + 1, path =>
    match win32_walkpath path buflen with
    | (e, some rest) => e :: walkEntriesAux buflen fuel rest
    | (_, none) => []

/-- The full sequence of entries the Walker yields on `path` before
returning the exhausted sentinel. -/
def walkEntries (path : List Char) (buflen : Nat) : List (List Char) :=
  walkEntriesAux buflen (path.length + 1) path

/-! ## Executable Locator (`win32_find_git_in_path`, findfile.c:73) -/

/-- The trailing-slash step (findfile.c:84-90): append a backslash unless
the entry already ends in a slash. -/
def ensureSlash (e : List Char) : List Char :=
  if e.getLast? = some '/' ∨ e.getLast? = some '\\' then e else e ++ ['\\']

/-- The body of the Locator's per-entry work (findfile.c:83-102): ensure a
trailing slash, skip the entry when the directory plus executable name would
not fit in `MAX_PATH`, probe for the executable, and on a hit (with the
directory longer than 5 characters) overwrite the final 4 characters of the
directory portion with `subdir` and normalize. -/
def processEntry (e : List Char) (fEx : List Char → Bool) (gitexe subdir : List Char) :
    Option (List Char) :=
  let d := ensureSlash e
  if MAX_PATH ≤ d.length + gitexe.length then none
  else if fEx (d ++ gitexe) ∧ 5 < d.length then
    some (win32_path_to_8 (d.take (d.length - 4) ++ subdir))
  else none

/-- The Locator's walk loop (findfile.c:82), fuelled: iterate the walker
while it makes progress and the entry is non-empty; return the first hit. -/
def findGitLoopAux (fEx : List Char → Bool) (gitexe subdir : List Char) :
    Nat → List Char → Option (List Char)
  | 0, _ => none
  | fuel + 1, envp =>
    match win32_walkpath envp (MAX_PATH - 1) with
    | (_, none) => none
    | (e, some rest) =>
      if e = [] then none
      else
        match processEntry e fEx gitexe subdir with
        | some r => some r
        | none => findGitLoopAux fEx gitexe subdir fuel rest

/-- The Locator's walk over a present PATH value. -/
def findGitLoop (envp : List Char) (fEx : List Char → Bool) (gitexe subdir : List Char) :
    Option (List Char) :=
  findGitLoopAux fEx gitexe subdir (envp.length + 1) envp

/-- Result of `win32_find_git_in_path`: a found directory (0 and a written
buffer), `GIT_ENOTFOUND`, or the -1 taken when PATH itself is absent. -/
inductive PathLookup where
  | found (p : List Char)
  | notfound
  | noenv
deriving DecidableEq

/-- `win32_find_git_in_path` (findfile.c:73-106).  `envPath` is the value of
`_wgetenv(L"PATH")` (`none` when the variable is unset), `fEx` the
`_waccess(·, F_OK) == 0` existence probe. -/
def win32_find_git_in_path (envPath : Option (List Char)) (fEx : List Char → Bool)
    (gitexe subdir : List Char) : PathLookup :=
  match envPath with
  | none => .noenv
  | some p =>
    match findGitLoop p fEx gitexe subdir with
    | some r => .found r
    | none => .notfound

/-! ## Registry Install-Location Reader (`win32_find_git_in_registry`, findfile.c:108) -/

/-- A registry value: its type tag (`dwType`) and the stored string data
(without the terminating null; a `REG_SZ` value of `n` characters occupies
`2 * (n + 1)` bytes including its terminator). -/
structure RegValue where
  dwType : Nat
  data : List Char
deriving DecidableEq

/-- An openable registry key: the `InstallLocation` value if present. -/
structure RegKey where
  installLocation : Option RegValue
deriving DecidableEq

/-- `cbData = (DWORD)(sizeof(path) - wcslen(subdir) * sizeof(wchar_t))`
(findfile.c:122): the byte budget handed to `RegQueryValueExW`, computed
with 32-bit unsigned arithmetic from the buffer capacity `cap` (in wide
characters) and the suffix length (in wide characters). -/
def regCbData (cap sublen : Nat) : Nat :=
  (2 * cap + 2 ^ 32 - (2 * sublen) % 2 ^ 32) % 2 ^ 32

/-- `win32_find_git_in_registry` (findfile.c:108-141).  `key?` is the
outcome of `RegOpenKeyExW` (`none` when the key is absent); the
`RegQueryValueExW` call succeeds exactly when the stored value fits in the
`cbData` byte budget, and the result is used only when typed `REG_SZ`; on
success the suffix is appended (`wcscat`) and the path normalized.  Every
failure produces `GIT_ENOTFOUND`, modelled as `none`. -/
def win32_find_git_in_registry (key? : Option RegKey) (subdir : List Char) (cap : Nat) :
    Option (List Char) :=
  match key? with
  | none => none
  | some k =>
    match k.installLocation with
    | none => none
    | some v =>
      if 2 * (v.data.length + 1) ≤ regCbData cap subdir.length ∧ v.dwType = REG_SZ then
        some (win32_path_to_8 (v.data ++ subdir))
      else none

/-! ## Environment Template Expander (`git_win32__expand_path`, findfile.c:27) -/

/-- Scan up to the next `%` character: the characters before it, and the
remainder after it (`none` when no `%` occurs). -/
def spanPercent : List Char → List Char × Option (List Char)
  | [] => ([], none)
  | c :: r =>
    if c = '%' then ([], some r)
    else
      let p := spanPercent r
      (c :: p.1, p.2)

/-- Modelled from the documented behaviour of the platform primitive
`ExpandEnvironmentStringsW` (not repository code): each `%VAR%` reference is
replaced by the variable's value when `lookup` defines it and is otherwise
left literally in place.  Fuelled; every recursive call strictly shortens
the template, so `length + 1` fuel suffices. -/
def expandTemplateAux (lookup : List Char → Option (List Char)) :
    Nat → List Char → List Char
  | 0, _ => []
  | fuel + 1, l =>
    match l with
    | [] => []
    | c :: r =>
      if c = '%' then
        match spanPercent r with
        | (nm, some after) =>
          match lookup nm with
          | some v => v ++ expandTemplateAux lookup fuel after
          | none => '%' :: (nm ++ '%' :: expandTemplateAux lookup fuel after)
        | (nm, none) => '%' :: nm
      else c :: expandTemplateAux lookup fuel r

/-- The `%VAR%` expansion of a template under the environment `lookup`. -/
def expandTemplate (lookup : List Char → Option (List Char)) (t : List Char) : List Char :=
  expandTemplateAux lookup (t.length + 1) t

/-- Modelled from the documented behaviour of `ExpandEnvironmentStringsW`:
given the expansion outcome (`none` for a hard primitive failure, which
reports 0) and the buffer capacity, return the reported length (the
character count of the result including its terminator, which is also the
required size when the buffer is too small) and the buffer content (written
only when the result fits). -/
def expandEnvStrings (expansion : Option (List Char)) (cap : Nat) : Nat × List Char :=
  match expansion with
  | none => (0, [])
  | some s => if s.length + 1 ≤ cap then (s.length + 1, s) else (s.length + 1, [])

/-- `git_win32__expand_path` (findfile.c:27-35): expansion fails when the
primitive reports zero length or a length exceeding the buffer capacity
`cap` (`ARRAY_SIZE(dest->path)`). -/
def git_win32__expand_path (expansion : Option (List Char)) (cap : Nat) :
    Option (List Char) :=
  let r := expandEnvStrings expansion cap
  if r.1 = 0 ∨ cap < r.1 then none else some r.2

/-! ## Template Directory Prober (`win32_find_existing_dirs`, findfile.c:143) -/

/-- The per-template work of the Prober (findfile.c:151-160): expand the
template, skip it when expansion failed, when the leading character of the
result is still `%`, or when the directory does not exist; otherwise
normalize.  The result is contributed only when non-empty (`buf.size`). -/
def probeTemplate (lookup : List Char → Option (List Char)) (fEx : List Char → Bool)
    (cap : Nat) (t : List Char) : Option (List Char) :=
  match git_win32__expand_path (some (expandTemplate lookup t)) cap with
  | none => none
  | some p =>
    if p.head? ≠ some '%' ∧ fEx p then
      if win32_path_to_8 p = [] then none else some (win32_path_to_8 p)
    else none

/-- `win32_find_existing_dirs` (findfile.c:143-166): clear the output, then
probe each template in order, joining every hit onto the output list. -/
def win32_find_existing_dirs (lookup : List Char → Option (List Char))
    (fEx : List Char → Bool) (tmpls : List (List Char)) (cap : Nat)
    (out0 : List Char) : List Char :=
  List.foldl
    (fun out t =>
      match probeTemplate lookup fEx cap t with
      | some b => git_str_join out b
      | none => out)
    (git_str_clear out0) tmpls

/-- The static template list of `git_win32__find_global_dirs` (findfile.c:197). -/
def globalTemplates : List (List Char) :=
  ["%HOME%\\".data, "%HOMEDRIVE%%HOMEPATH%\\".data, "%USERPROFILE%\\".data]

/-- The static template list of `git_win32__find_xdg_dirs` (findfile.c:209). -/
def xdgTemplates : List (List Char) :=
  ["%XDG_CONFIG_HOME%\\git".data, "%APPDATA%\\git".data, "%LOCALAPPDATA%\\git".data,
   "%HOME%\\.config\\git".data, "%HOMEDRIVE%%HOMEPATH%\\.config\\git".data,
   "%USERPROFILE%\\.config\\git".data]

/-- The static template list of `git_win32__find_programdata_dirs` (findfile.c:224). -/
def programdataTemplates : List (List Char) :=
  ["%PROGRAMDATA%\\Git".data]

/-- `git_win32__find_global_dirs` (findfile.c:195-205). -/
def git_win32__find_global_dirs (lookup : List Char → Option (List Char))
    (fEx : List Char → Bool) (cap : Nat) (out0 : List Char) : List Char :=
  win32_find_existing_dirs lookup fEx globalTemplates cap out0

/-- `git_win32__find_xdg_dirs` (findfile.c:207-220). -/
def git_win32__find_xdg_dirs (lookup : List Char → Option (List Char))
    (fEx : List Char → Bool) (cap : Nat) (out0 : List Char) : List Char :=
  win32_find_existing_dirs lookup fEx xdgTemplates cap out0

/-- `git_win32__find_programdata_dirs` (findfile.c:222-230). -/
def git_win32__find_programdata_dirs (lookup : List Char → Option (List Char))
    (fEx : List Char → Bool) (cap : Nat) (out0 : List Char) : List Char :=
  win32_find_existing_dirs lookup fEx programdataTemplates cap out0

/-! ## System-dirs Aggregator (`git_win32__find_system_dirs`, findfile.c:168) -/

/-- The live OS state `git_win32__find_system_dirs` reads: the PATH
variable, the filesystem existence probe, and the two registry records
(`HKEY_CURRENT_USER` with the local uninstall key and `HKEY_LOCAL_MACHINE`
with the bit-width-appropriate uninstall key). -/
structure SysEnv where
  pathEnv : Option (List Char)
  fExists : List Char → Bool
  regUser : Option RegKey
  regMachine : Option RegKey

/-- The executable name `L"git.exe"` (findfile.c:173). -/
def gitExeName : List Char := "git.exe".data

/-- The executable name `L"git.cmd"` (findfile.c:178). -/
def gitCmdName : List Char := "git.cmd".data

/-- One PATH-based source of the aggregator: the guard
`!win32_find_git_in_path(...) && buf.size` (findfile.c:173,178) as an
optional contribution. -/
def pathSource (env : SysEnv) (gitexe subdir : List Char) : Option (List Char) :=
  match win32_find_git_in_path env.pathEnv env.fExists gitexe subdir with
  | .found p => if p = [] then none else some p
  | _ => none

/-- One registry-based source of the aggregator: the guard
`!win32_find_git_in_registry(...) && buf.size` (findfile.c:182-188) as an
optional contribution. -/
def regSource (key? : Option RegKey) (subdir : List Char) (cap : Nat) :
    Option (List Char) :=
  match win32_find_git_in_registry key? subdir cap with
  | some p => if p = [] then none else some p
  | none => none

/-- `git_win32__find_system_dirs` (findfile.c:168-193): the first source
replaces or clears the caller-supplied output, each later successful source
is joined on.  `out0` is the output string's prior content; `cap` the native
path-buffer capacity used by the registry reader. -/
def git_win32__find_system_dirs (env : SysEnv) (subdir : List Char) (cap : Nat)
    (out0 : List Char) : List Char :=
  let out1 :=
    match pathSource env gitExeName subdir with
    | some p => git_str_set out0 p
    | none => git_str_clear out0
  let out2 :=
    match pathSource env gitCmdName subdir with
    | some p => git_str_join out1 p
    | none => out1
  let out3 :=
    match regSource env.regUser subdir cap with
    | some p => git_str_join out2 p
    | none => out2
  match regSource env.regMachine subdir cap with
  | some p => git_str_join out3 p
  | none => out3

/-- The successful sources of `git_win32__find_system_dirs`, in invocation
order (git.exe on PATH, git.cmd on PATH, per-user registry record,
machine-wide registry record). -/
def sysSources (env : SysEnv) (subdir : List Char) (cap : Nat) : List (List Char) :=
  List.filterMap id
    [pathSource env gitExeName subdir,
     pathSource env gitCmdName subdir,
     regSource env.regUser subdir cap,
     regSource env.regMachine subdir cap]

/-! ## Specification-side model of well-formed PATH strings -/

/-- A directory entry of a PATH string as the specification describes it:
optionally double-quoted, with the given body. -/
structure PathItem where
  quoted : Bool
  body : List Char
deriving DecidableEq

/-- A well-formed PATH entry whose text fits a destination buffer of
`buflen` wide characters: a non-empty body free of quote characters, free of
`;` when unquoted, and short enough to be copied without truncation. -/
def itemWF (buflen : Nat) (it : PathItem) : Prop :=
  it.body ≠ [] ∧ '"' ∉ it.body ∧ (it.quoted = false → ';' ∉ it.body) ∧
    it.body.length + 1 ≤ buflen

instance (buflen : Nat) (it : PathItem) : Decidable (itemWF buflen it) := by
  unfold itemWF; infer_instance

/-- The text of one entry: quoted entries are wrapped in double quotes. -/
def encodeItem (it : PathItem) : List Char :=
  if it.quoted then '"' :: (it.body ++ ['"']) else it.body

/-- The PATH string of an entry list: entry texts joined by single `;`. -/
def encodePath : List PathItem → List Char
  | [] => []
  | [i] => encodeItem i
  | i :: is => encodeItem i ++ ';' :: encodePath is

/-- No two adjacent entries are both quoted. -/
def noConsecQuoted : List PathItem → Prop
  | i :: j :: rest => ¬(i.quoted = true ∧ j.quoted = true) ∧ noConsecQuoted (j :: rest)
  | _ => True

instance noConsecQuotedDec : ∀ (l : List PathItem), Decidable (noConsecQuoted l)
  | [] => isTrue trivial
  | [_] => isTrue trivial
  | i :: j :: rest =>
    haveI := noConsecQuotedDec (j :: rest)
    inferInstanceAs (Decidable (¬(i.quoted = true ∧ j.quoted = true) ∧ noConsecQuoted (j :: rest)))

/-- The accumulator pass of the naive split the claims describe: scan the
string, toggling (and stripping) on double quotes, splitting on `;` only
outside quotes. -/
def naiveSplitAux : List Char → Bool → List Char → List (List Char)
  | [], _, cur => [cur.reverse]
  | c :: r, inq, cur =>
    if c = '"' then naiveSplitAux r (!inq) cur
    else if c = ';' ∧ inq = false then cur.reverse :: naiveSplitAux r false []
    else naiveSplitAux r inq (c :: cur)

/-- A naive split of a PATH string on unquoted `;` characters, respecting
one level of double-quote quoting, quotes stripped from the entries. -/
def naiveSplit (s : List Char) : List (List Char) := naiveSplitAux s false []

/-! ## Walker lemmas -/

/-- The copy loop writes at most `budget` characters. -/
theorem wpCopy_length (l : List Char) (term : Char) (budget : Nat) :
    (wpCopy l term budget).1.length ≤ budget := by
  induction l generalizing budget with
  | nil => simp [wpCopy]
  | cons c r ih =>
    by_cases hc : c = term
    · simp [wpCopy, hc]
    · by_cases hb : budget = 0
      · simp [wpCopy, hc, hb]
      · have := ih (budget - 1)
        simp only [wpCopy, if_neg hc, if_neg hb, List.length_cons]
        omega

/-- With a zero budget nothing is copied. -/
theorem wpCopy_zero (l : List Char) (term : Char) : wpCopy l term 0 = ([], l) := by
  cases l with
  | nil => rfl
  | cons c r => by_cases hc : c = term <;> simp [wpCopy, hc]

/-- A block free of the terminator and within budget is copied whole when
what follows is empty or starts with the terminator. -/
theorem wpCopy_fits (e ts : List Char) (term : Char) (n : Nat)
    (hterm : term ∉ e) (hlen : e.length ≤ n)
    (hts : ts = [] ∨ ts.head? = some term) :
    wpCopy (e ++ ts) term n = (e, ts) := by
  induction e generalizing n with
  | nil =>
    rcases hts with rfl | hts
    · simp [wpCopy]
    · cases ts with
      | nil => simp [wpCopy]
      | cons c r =>
        simp only [List.head?_cons, Option.some.injEq] at hts
        simp [wpCopy, hts]
  | cons c e' ih =>
    have hc : c ≠ term := fun h => hterm (h ▸ List.mem_cons_self c e')
    have hterm' : term ∉ e' := fun h => hterm (List.mem_cons_of_mem c h)
    have hn : n ≠ 0 := by simp at hlen; omega
    have hlen' : e'.length ≤ n - 1 := by simp at hlen; omega
    simp only [List.cons_append, wpCopy, if_neg hc, if_neg hn, List.append_eq]
    rw [ih (n - 1) hterm' hlen']

/-- A block free of the terminator but at least as long as the budget is
truncated at exactly `n` copied characters. -/
theorem wpCopy_trunc (e ts : List Char) (term : Char) (n : Nat)
    (hterm : term ∉ e) (hlen : n ≤ e.length) :
    wpCopy (e ++ ts) term n = (e.take n, e.drop n ++ ts) := by
  induction n generalizing e with
  | zero => simp [wpCopy_zero]
  | succ m ih =>
    cases e with
    | nil => simp at hlen
    | cons c e' =>
      have hc : c ≠ term := fun h => hterm (h ▸ List.mem_cons_self c e')
      have hterm' : term ∉ e' := fun h => hterm (List.mem_cons_of_mem c h)
      have hlen' : m ≤ e'.length := by simp at hlen; omega
      simp [wpCopy, hc, ih e' hterm' hlen']

/-- The skip loop never lengthens its input. -/
theorem wpSkip_length_le (l : List Char) (term : Char) :
    (wpSkip l term).length ≤ l.length := by
  induction l with
  | nil => simp [wpSkip]
  | cons c r ih =>
    by_cases h : c = term ∨ c = ';'
    · simp only [wpSkip, if_pos h, List.length_cons]; omega
    · simp [wpSkip, h]

/-- The skip loop stops immediately on a list not starting with the
terminator nor a semicolon. -/
theorem wpSkip_stop (l : List Char) (term : Char)
    (h : ∀ c, l.head? = some c → c ≠ term ∧ c ≠ ';') : wpSkip l term = l := by
  cases l with
  | nil => rfl
  | cons c r =>
    have := h c rfl
    simp [wpSkip, this.1, this.2]

/-- A non-quote leading character selects the `;` terminator and consumes
nothing. -/
theorem wpTerm_no_quote (l : List Char) (h : l.head? ≠ some '"') :
    wpTerm l = (';', l) := by
  cases l with
  | nil => rfl
  | cons c r =>
    simp only [List.head?_cons, ne_eq, Option.some.injEq] at h
    simp [wpTerm, h]

/-- A leading quote is consumed and becomes the terminator. -/
theorem wpTerm_quote (r : List Char) : wpTerm ('"' :: r) = ('"', r) := by
  simp [wpTerm]

/-- On an empty input the walker writes an empty entry and reports the
exhausted sentinel. -/
theorem walkpath_nil (buflen : Nat) : win32_walkpath [] buflen = ([], none) := by
  cases buflen with
  | zero => rfl
  | succ b => simp [win32_walkpath, wpTerm, wpCopy, wpSkip]

/-- A successful walker call strictly shortens the cursor. -/
theorem walkpath_some_lt {path : List Char} {buflen : Nat} {e rest : List Char}
    (h : win32_walkpath path buflen = (e, some rest)) : rest.length < path.length := by
  by_cases hb : buflen = 0
  · simp [win32_walkpath, hb] at h
  · simp only [win32_walkpath, if_neg hb] at h
    split at h
    · rename_i hlt
      injection h with h1 h2
      injection h2 with h3
      exact h3 ▸ hlt
    · simp at h

/-- One full walker evaluation, assembled from its three loops. -/
theorem walkpath_spec (path : List Char) (buflen : Nat) (hb : buflen ≠ 0)
    (term : Char) (p1 e p2 : List Char)
    (ht : wpTerm path = (term, p1))
    (hcpy : wpCopy p1 term (buflen - 1) = (e, p2)) :
    win32_walkpath path buflen =
      (e, if (wpSkip p2 term).length < path.length then some (wpSkip p2 term) else none) := by
  simp [win32_walkpath, hb, ht, hcpy]

/-- One unfolding of the fuelled walk. -/
theorem walkEntriesAux_succ (buflen fuel : Nat) (path : List Char) :
    walkEntriesAux buflen (fuel + 1) path =
      match win32_walkpath path buflen with
      | (e, some rest) => e :: walkEntriesAux buflen fuel rest
      | (_, none) => [] := rfl

/-- Fuel does not matter for the walk once it exceeds the cursor length. -/
theorem walkEntriesAux_mono (buflen : Nat) :
    ∀ (f1 f2 : Nat) (path : List Char), path.length < f1 → path.length < f2 →
      walkEntriesAux buflen f1 path = walkEntriesAux buflen f2 path := by
  intro f1
  induction f1 with
  | zero => intro f2 path h1; omega
  | succ a ih =>
    intro f2 path h1 h2
    cases f2 with
    | zero => omega
    | succ b =>
      rw [walkEntriesAux_succ, walkEntriesAux_succ]
      cases h : win32_walkpath path buflen with
      | mk e rest? =>
        cases rest? with
        | none => rfl
        | some rest =>
          have hlt := walkpath_some_lt h
          show e :: walkEntriesAux buflen a rest = e :: walkEntriesAux buflen b rest
          rw [ih b rest (by omega) (by omega)]

/-- Unfolding one successful walker call out of `walkEntries`. -/
theorem walkEntries_step {path : List Char} {buflen : Nat} {e rest : List Char}
    (h : win32_walkpath path buflen = (e, some rest)) :
    walkEntries path buflen = e :: walkEntries rest buflen := by
  have hlt := walkpath_some_lt h
  unfold walkEntries
  conv_lhs => rw [walkEntriesAux_succ, h]
  show e :: walkEntriesAux buflen path.length rest = e :: walkEntriesAux buflen (rest.length + 1) rest
  rw [walkEntriesAux_mono buflen path.length (rest.length + 1) rest (by omega) (by omega)]

/-- A sentinel walker call ends `walkEntries`. -/
theorem walkEntries_last {path : List Char} {buflen : Nat} {e : List Char}
    (h : win32_walkpath path buflen = (e, none)) :
    walkEntries path buflen = [] := by
  unfold walkEntries
  rw [walkEntriesAux_succ, h]

/-- The walk over the empty string yields no entries. -/
theorem walkEntries_nil (buflen : Nat) : walkEntries [] buflen = [] :=
  walkEntries_last (walkpath_nil buflen)

/-- A leading terminator character stops the copy loop immediately. -/
theorem wpCopy_head_term (c : Char) (r : List Char) (term : Char) (n : Nat)
    (h : c = term) : wpCopy (c :: r) term n = ([], c :: r) := by
  simp [wpCopy, h]

/-- The head of an append is the head of its non-empty left part. -/
theorem head?_append_left (a b : List Char) (h : a ≠ []) : (a ++ b).head? = a.head? := by
  cases a with
  | nil => exact absurd rfl h
  | cons c r => simp

/-- One unfolding of the fuelled Locator loop. -/
theorem findGitLoopAux_succ (fEx : List Char → Bool) (gitexe subdir : List Char)
    (fuel : Nat) (envp : List Char) :
    findGitLoopAux fEx gitexe subdir (fuel + 1) envp =
      match win32_walkpath envp (MAX_PATH - 1) with
      | (_, none) => none
      | (e, some rest) =>
        if e = [] then none
        else
          match processEntry e fEx gitexe subdir with
          | some r => some r
          | none => findGitLoopAux fEx gitexe subdir fuel rest := rfl

/-- The Locator loop finds nothing in an exhausted PATH. -/
theorem findGitLoopAux_nil (fEx : List Char → Bool) (gitexe subdir : List Char)
    (fuel : Nat) : findGitLoopAux fEx gitexe subdir fuel [] = none := by
  cases fuel with
  | zero => rfl
  | succ f => rw [findGitLoopAux_succ, walkpath_nil]

/-- Claim C9: for every input path and every `buflen ≥ 1`, `win32_walkpath`
writes at most `buflen` wide characters into the destination buffer — at
most `buflen - 1` copied entry characters (the entry returned by the model)
plus the terminating null the initial `buflen--` reserves — and the
destination is null-terminated when the call returns. -/
theorem c9_walker_bounds (path : List Char) (buflen : Nat) (h : 1 ≤ buflen) :
    (win32_walkpath path buflen).1.length + 1 ≤ buflen := by
  unfold win32_walkpath
  rw [if_neg (by omega)]
  have hc := wpCopy_length (wpTerm path).2 (wpTerm path).1 (buflen - 1)
  dsimp only
  omega

/-- Witness for C9 at a concrete input. -/
theorem c9_witness : (win32_walkpath "abc".data 2).1.length + 1 ≤ 2 :=
  c9_walker_bounds "abc".data 2 (by decide)

/-- Claim C5: template expansion fails — and only fails — when the platform
primitive reports zero length or when the length of the expansion result
meets or exceeds the buffer capacity (the primitive then reports
`length + 1`, which exceeds `cap` exactly when `cap ≤ length`); on failure
`none` is returned, never a truncated path. -/
theorem c5_expand_path_failure_iff (expansion : Option (List Char)) (cap : Nat) :
    git_win32__expand_path expansion cap = none ↔
      ((expandEnvStrings expansion cap).1 = 0 ∨
        ∃ s, expansion = some s ∧ cap ≤ s.length) := by
  cases expansion with
  | none => simp [git_win32__expand_path, expandEnvStrings]
  | some s =>
    by_cases h : s.length + 1 ≤ cap
    · simp only [git_win32__expand_path, expandEnvStrings, if_pos h]
      simp
      omega
    · simp only [git_win32__expand_path, expandEnvStrings, if_neg h]
      simp
      omega

/-- Claim C8: an entry at least `buflen - 1` characters long is silently
truncated: exactly `buflen - 1` characters are copied (and null-terminated
in the reserved slot), and the walk continues — the walker still reports
progress rather than failing the whole walk. -/
theorem c8_walker_truncation (e rest : List Char) (buflen : Nat)
    (hb : 2 ≤ buflen) (hlen : buflen - 1 ≤ e.length) (hsemi : ';' ∉ e)
    (hq : e.head? ≠ some '"') (_hrest : rest = [] ∨ rest.head? = some ';') :
    (win32_walkpath (e ++ rest) buflen).1 = e.take (buflen - 1) ∧
      (win32_walkpath (e ++ rest) buflen).2.isSome = true := by
  have hne : e ≠ [] := by
    intro h
    subst h
    simp at hlen
    omega
  have ht : wpTerm (e ++ rest) = (';', e ++ rest) := by
    apply wpTerm_no_quote
    rw [head?_append_left e rest hne]
    exact hq
  have hcpy := wpCopy_trunc e rest ';' (buflen - 1) hsemi hlen
  rw [walkpath_spec (e ++ rest) buflen (by omega) ';' (e ++ rest)
    (e.take (buflen - 1)) (e.drop (buflen - 1) ++ rest) ht hcpy]
  have hsk := wpSkip_length_le (e.drop (buflen - 1) ++ rest) ';'
  have hif : (wpSkip (e.drop (buflen - 1) ++ rest) ';').length < (e ++ rest).length := by
    simp only [List.length_append, List.length_drop] at hsk ⊢
    omega
  rw [if_pos hif]
  exact ⟨rfl, rfl⟩

/-- Witness for C8: a six-character entry against a four-slot buffer is cut
to three characters and the walk goes on. -/
theorem c8_witness :
    (win32_walkpath ("abcdef".data ++ ";gh".data) 4).1 = "abcdef".data.take 3 ∧
      (win32_walkpath ("abcdef".data ++ ";gh".data) 4).2.isSome = true :=
  c8_walker_truncation "abcdef".data ";gh".data 4 (by decide) (by decide)
    (by decide) (by decide) (Or.inr (by decide))

/-- Claim C10: a PATH beginning with `;` (or with an empty double-quoted
entry) makes the walker yield an empty entry, and the Locator's loop
condition `*root.path` then stops the whole iteration: the lookup returns
not-found no matter what the existence probe would say about later
directories. -/
theorem c10_empty_entry_stops (p : List Char) (fEx : List Char → Bool)
    (gitexe subdir : List Char)
    (h : p.head? = some ';' ∨ ∃ r, p = '"' :: '"' :: r) :
    win32_find_git_in_path (some p) fEx gitexe subdir = PathLookup.notfound := by
  have hwalk : ∃ rest, win32_walkpath p (MAX_PATH - 1) = ([], some rest) := by
    rcases h with h | ⟨r, rfl⟩
    · obtain ⟨r, rfl⟩ : ∃ r, p = ';' :: r := by
        cases p with
        | nil => simp at h
        | cons c r =>
          simp only [List.head?_cons, Option.some.injEq] at h
          exact ⟨r, by rw [h]⟩
      refine ⟨wpSkip r ';', ?_⟩
      rw [walkpath_spec (';' :: r) (MAX_PATH - 1) (by decide) ';' (';' :: r) [] (';' :: r)
        (wpTerm_no_quote _ (by simp)) (wpCopy_head_term ';' r ';' _ rfl)]
      have hsk : wpSkip (';' :: r) ';' = wpSkip r ';' := by simp [wpSkip]
      have hlt : (wpSkip r ';').length < (';' :: r).length := by
        have := wpSkip_length_le r ';'
        simp only [List.length_cons]
        omega
      rw [hsk, if_pos hlt]
    · refine ⟨wpSkip r '"', ?_⟩
      rw [walkpath_spec ('"' :: '"' :: r) (MAX_PATH - 1) (by decide) '"' ('"' :: r) [] ('"' :: r)
        (wpTerm_quote _) (wpCopy_head_term '"' r '"' _ rfl)]
      have hsk : wpSkip ('"' :: r) '"' = wpSkip r '"' := by simp [wpSkip]
      have hlt : (wpSkip r '"').length < ('"' :: '"' :: r).length := by
        have := wpSkip_length_le r '"'
        simp only [List.length_cons]
        omega
      rw [hsk, if_pos hlt]
  obtain ⟨rest, hw⟩ := hwalk
  show (match findGitLoopAux fEx gitexe subdir (p.length + 1) p with
    | some r => PathLookup.found r
    | none => PathLookup.notfound) = PathLookup.notfound
  rw [findGitLoopAux_succ, hw]
  simp

/-- Witness for C10: PATH starts with `;`, the executable does exist in the
directory listed right after it, yet the result is not-found. -/
theorem c10_witness :
    win32_find_git_in_path (some ";C:\\Tools\\Git\\bin".data) (fun _ => true)
      "git.exe".data "\\share\\".data = PathLookup.notfound :=
  c10_empty_entry_stops ";C:\\Tools\\Git\\bin".data (fun _ => true)
    "git.exe".data "\\share\\".data (Or.inl (by decide))

/-- In the regime the reader runs in (suffix shorter than the buffer, buffer
far below the DWORD range) the byte budget is exactly twice the character
headroom. -/
theorem regCbData_eq (cap L : Nat) (hL : L ≤ cap) (hcap : cap < 2 ^ 31) :
    regCbData cap L = 2 * (cap - L) := by
  have e32 : (2 : Nat) ^ 32 = 4294967296 := by norm_num
  have e31 : (2 : Nat) ^ 31 = 2147483648 := by norm_num
  unfold regCbData
  rw [e32]
  rw [e31] at hcap
  have h1 : (2 * L) % 4294967296 = 2 * L := Nat.mod_eq_of_lt (by omega)
  rw [h1]
  have h2 : 2 * cap + 4294967296 - 2 * L = 2 * (cap - L) + 4294967296 := by omega
  rw [h2, Nat.add_mod_right]
  exact Nat.mod_eq_of_lt (by omega)

/-- Claim C4: with buffer capacity `cap` wide characters and a suffix of
`subdir.length` wide characters, the byte budget passed to the registry
query reserves exactly the suffix (it is `cap - subdir.length` characters);
a stored `InstallLocation` string of exactly `cap - subdir.length - 1`
characters is read and suffixed, while a value one character longer fails
the read and the reader returns not-found, the suffix never written. -/
theorem c4_registry_capacity (cap : Nat) (subdir v : List Char)
    (h1 : subdir.length < cap) (h2 : cap < 2 ^ 31) :
    regCbData cap subdir.length = 2 * (cap - subdir.length) ∧
    (v.length = cap - subdir.length - 1 →
      win32_find_git_in_registry (some ⟨some ⟨REG_SZ, v⟩⟩) subdir cap =
        some (win32_path_to_8 (v ++ subdir))) ∧
    (v.length = cap - subdir.length →
      win32_find_git_in_registry (some ⟨some ⟨REG_SZ, v⟩⟩) subdir cap = none) := by
  have hcb := regCbData_eq cap subdir.length (le_of_lt h1) h2
  refine ⟨hcb, ?_, ?_⟩
  · intro hv
    show (if 2 * (v.length + 1) ≤ regCbData cap subdir.length ∧ REG_SZ = REG_SZ
      then some (win32_path_to_8 (v ++ subdir)) else none) =
        some (win32_path_to_8 (v ++ subdir))
    rw [if_pos ⟨by rw [hcb, hv]; omega, rfl⟩]
  · intro hv
    show (if 2 * (v.length + 1) ≤ regCbData cap subdir.length ∧ REG_SZ = REG_SZ
      then some (win32_path_to_8 (v ++ subdir)) else none) = none
    rw [if_neg]
    rw [hcb, hv]
    intro hco
    omega

/-- Witness for C4 at capacity 260 and suffix `\etc\`: a 254-character
value is exactly the boundary that still succeeds. -/
theorem c4_witness :
    regCbData 260 "\\etc\\".data.length = 2 * (260 - "\\etc\\".data.length) ∧
    ((List.replicate 254 'a').length = 260 - "\\etc\\".data.length - 1 →
      win32_find_git_in_registry (some ⟨some ⟨REG_SZ, List.replicate 254 'a'⟩⟩)
        "\\etc\\".data 260 =
          some (win32_path_to_8 (List.replicate 254 'a' ++ "\\etc\\".data))) ∧
    ((List.replicate 254 'a').length = 260 - "\\etc\\".data.length →
      win32_find_git_in_registry (some ⟨some ⟨REG_SZ, List.replicate 254 'a'⟩⟩)
        "\\etc\\".data 260 = none) :=
  c4_registry_capacity 260 "\\etc\\".data (List.replicate 254 'a')
    (by decide) (by norm_num)

/-- The OS state of claim C1: PATH unset, no file exists, exactly one
registry record present (per-user hive) whose string-typed
`InstallLocation` is `C:\Git\`. -/
def c1Env : SysEnv :=
  { pathEnv := none
    fExists := fun _ => false
    regUser := some ⟨some ⟨REG_SZ, "C:\\Git\\".data⟩⟩
    regMachine := none }

/-- The subdirectory suffix of claim C1. -/
def c1Subdir : List Char := "\\mingw64\\share\\git\\".data

/-- Counterexample to claim C1: under exactly the claimed state the single
entry produced is `C:/Git//mingw64/share/git/` — the plain `wcscat` of the
trailing-backslash install root and the leading-backslash suffix yields a
doubled separator, which the backslash-to-slash normalization (which never
collapses repeated slashes) keeps — not the claimed
`C:/Git/mingw64/share/git/`. -/
theorem c1_counterexample :
    git_win32__find_system_dirs c1Env c1Subdir 260 [] = "C:/Git//mingw64/share/git/".data ∧
      git_win32__find_system_dirs c1Env c1Subdir 260 [] ≠ "C:/Git/mingw64/share/git/".data := by
  constructor
  · rfl
  · decide

/-- Claim C1 as amended: with PATH unset and exactly one registry record
present with `InstallLocation = C:\Git\`, `find_system_dirs` with subdir
`\mingw64\share\git\` returns, for every prior content of the output
string, exactly one entry (no separator occurs in it): the string
`C:/Git//mingw64/share/git/`. -/
theorem c1_amended (out0 : List Char) :
    git_win32__find_system_dirs c1Env c1Subdir 260 out0 = "C:/Git//mingw64/share/git/".data ∧
      ';' ∉ "C:/Git//mingw64/share/git/".data := by
  constructor
  · rfl
  · decide

/-- A full single unquoted entry that fits the destination is walked whole,
with the cursor advancing to the end of the string. -/
theorem walkpath_single_entry (e : List Char) (hne : e ≠ []) (hsemi : ';' ∉ e)
    (hq : e.head? ≠ some '"') (hlen : e.length ≤ MAX_PATH - 2) :
    win32_walkpath e (MAX_PATH - 1) = (e, some []) := by
  have ht : wpTerm e = (';', e) := wpTerm_no_quote e hq
  have hcpy : wpCopy e ';' (MAX_PATH - 1 - 1) = (e, []) := by
    have := wpCopy_fits e [] ';' (MAX_PATH - 1 - 1) hsemi (by simpa [MAX_PATH] using hlen)
      (Or.inl rfl)
    simpa using this
  rw [walkpath_spec e (MAX_PATH - 1) (by decide) ';' e e [] ht hcpy]
  have hlt : (wpSkip [] ';').length < e.length := by
    simp only [wpSkip, List.length_nil]
    exact List.length_pos.mpr hne
  rw [if_pos hlt]
  rfl

/-- Claim C3: for a PATH consisting of a directory entry in which the probed
executable exists and whose slash-terminated form `d` is longer than 5
characters (and fits together with the executable name), the Locator
returns `d` with exactly its final 4 characters replaced by the
caller-supplied `subdir`, normalized, and nothing else; a directory whose
slash-terminated length is at most 5 is rejected (not-found), never
corrupted. -/
theorem c3_locator_substitution (e : List Char) (fEx : List Char → Bool)
    (gitexe subdir : List Char) (hne : e ≠ []) (hsemi : ';' ∉ e)
    (hq : e.head? ≠ some '"') (hlen : e.length ≤ MAX_PATH - 2) :
    (fEx (ensureSlash e ++ gitexe) = true → 5 < (ensureSlash e).length →
      (ensureSlash e).length + gitexe.length < MAX_PATH →
      win32_find_git_in_path (some e) fEx gitexe subdir =
        PathLookup.found
          (win32_path_to_8
            ((ensureSlash e).take ((ensureSlash e).length - 4) ++ subdir))) ∧
    ((ensureSlash e).length ≤ 5 →
      win32_find_git_in_path (some e) fEx gitexe subdir = PathLookup.notfound) := by
  have hw := walkpath_single_entry e hne hsemi hq hlen
  constructor
  · intro hEx h5 hfit
    have hpe : processEntry e fEx gitexe subdir =
        some (win32_path_to_8 ((ensureSlash e).take ((ensureSlash e).length - 4) ++ subdir)) := by
      unfold processEntry
      rw [if_neg (by omega), if_pos ⟨hEx, h5⟩]
    show (match findGitLoopAux fEx gitexe subdir (e.length + 1) e with
      | some r => PathLookup.found r
      | none => PathLookup.notfound) = _
    rw [findGitLoopAux_succ, hw]
    simp only [if_neg hne, hpe]
  · intro h5
    have hpe : processEntry e fEx gitexe subdir = none := by
      unfold processEntry
      by_cases hfit : MAX_PATH ≤ (ensureSlash e).length + gitexe.length
      · rw [if_pos hfit]
      · rw [if_neg hfit, if_neg]
        intro hco
        omega
    show (match findGitLoopAux fEx gitexe subdir (e.length + 1) e with
      | some r => PathLookup.found r
      | none => PathLookup.notfound) = _
    rw [findGitLoopAux_succ, hw]
    simp only [if_neg hne, hpe]
    rw [findGitLoopAux_nil]

/-- Witness for C3: the spec's own example, entry `C:\Tools\Git\bin` with
`git.exe` present and `subdir = \share\foo\`. -/
theorem c3_witness :
    win32_find_git_in_path (some "C:\\Tools\\Git\\bin".data)
      (fun p => p = "C:\\Tools\\Git\\bin\\git.exe".data)
      "git.exe".data "\\share\\foo\\".data =
      PathLookup.found
        (win32_path_to_8
          ((ensureSlash "C:\\Tools\\Git\\bin".data).take
            ((ensureSlash "C:\\Tools\\Git\\bin".data).length - 4) ++ "\\share\\foo\\".data)) :=
  (c3_locator_substitution "C:\\Tools\\Git\\bin".data
    (fun p => p = "C:\\Tools\\Git\\bin\\git.exe".data) "git.exe".data "\\share\\foo\\".data
    (by decide) (by decide) (by decide) (by decide)).1 (by decide) (by decide) (by decide)

/-- A join list with non-empty entries is non-empty once it has an entry. -/
theorem joinPathList_ne_nil (l : List (List Char)) (hl : ∀ x ∈ l, x ≠ [])
    (hne : l ≠ []) : joinPathList l ≠ [] := by
  cases l with
  | nil => exact absurd rfl hne
  | cons x xs =>
    cases xs with
    | nil => exact hl x (List.mem_cons_self x [])
    | cons y ys => simp [joinPathList]

/-- Appending one more entry through `git_str_join` extends the join list. -/
theorem git_str_join_joinPathList (l : List (List Char)) (b : List Char)
    (hl : ∀ x ∈ l, x ≠ []) :
    git_str_join (joinPathList l) b = joinPathList (l ++ [b]) := by
  induction l with
  | nil => simp [joinPathList, git_str_join]
  | cons x xs ih =>
    cases xs with
    | nil =>
      have hx : x ≠ [] := hl x (List.mem_cons_self x [])
      simp [joinPathList, git_str_join, hx]
    | cons y ys =>
      have hys : ∀ z ∈ y :: ys, z ≠ [] := fun z hz => hl z (List.mem_cons_of_mem x hz)
      have hne : joinPathList (x :: y :: ys) ≠ [] :=
        joinPathList_ne_nil _ hl (by simp)
      have ihy := ih hys
      show git_str_join (x ++ ';' :: joinPathList (y :: ys)) b = _
      rw [git_str_join, if_neg (by simp)]
      have : joinPathList ((x :: y :: ys) ++ [b]) =
          x ++ ';' :: joinPathList ((y :: ys) ++ [b]) := rfl
      rw [this, ← ihy, git_str_join,
        if_neg (joinPathList_ne_nil _ hys (by simp))]
      simp

/-- A fold of guarded joins over optional contributions builds exactly the
join of the successful ones, in order. -/
theorem foldl_join_filterMap {α : Type} (f : α → Option (List Char)) :
    ∀ (ts : List α) (acc : List (List Char)), (∀ x ∈ acc, x ≠ []) →
      (∀ t ∈ ts, ∀ p, f t = some p → p ≠ []) →
      List.foldl
        (fun out t =>
          match f t with
          | some b => git_str_join out b
          | none => out)
        (joinPathList acc) ts = joinPathList (acc ++ ts.filterMap f) := by
  intro ts
  induction ts with
  | nil => intro acc hacc hts; simp
  | cons t ts' ih =>
    intro acc hacc hts
    cases hft : f t with
    | none =>
      simp only [List.foldl_cons, hft]
      rw [ih acc hacc (fun u hu => hts u (List.mem_cons_of_mem t hu))]
      simp [List.filterMap_cons, hft]
    | some b =>
      have hb : b ≠ [] := hts t (List.mem_cons_self t ts') b hft
      simp only [List.foldl_cons, hft]
      rw [git_str_join_joinPathList acc b hacc]
      rw [ih (acc ++ [b])
        (by
          intro x hx
          rcases List.mem_append.mp hx with hx | hx
          · exact hacc x hx
          · simp at hx
            subst hx
            exact hb)
        (fun u hu => hts u (List.mem_cons_of_mem t hu))]
      simp [List.filterMap_cons, hft]

/-- A PATH-based source only contributes non-empty strings. -/
theorem pathSource_ne_nil (env : SysEnv) (gitexe subdir : List Char) (p : List Char)
    (h : pathSource env gitexe subdir = some p) : p ≠ [] := by
  unfold pathSource at h
  cases hf : win32_find_git_in_path env.pathEnv env.fExists gitexe subdir with
  | found q =>
    rw [hf] at h
    by_cases hq : q = []
    · simp [hq] at h
    · simp only [if_neg hq] at h
      injection h with h1
      exact h1 ▸ hq
  | notfound => rw [hf] at h; simp at h
  | noenv => rw [hf] at h; simp at h

/-- A registry-based source only contributes non-empty strings. -/
theorem regSource_ne_nil (key? : Option RegKey) (subdir : List Char) (cap : Nat)
    (p : List Char) (h : regSource key? subdir cap = some p) : p ≠ [] := by
  unfold regSource at h
  cases hf : win32_find_git_in_registry key? subdir cap with
  | none => rw [hf] at h; simp at h
  | some q =>
    rw [hf] at h
    by_cases hq : q = []
    · simp [hq] at h
    · simp only [if_neg hq] at h
      injection h with h1
      exact h1 ▸ hq

/-- The sequential replace-then-join structure of the aggregator is the
guarded-join fold over its four sources. -/
theorem find_system_dirs_eq_foldl (env : SysEnv) (subdir : List Char) (cap : Nat)
    (out0 : List Char) :
    git_win32__find_system_dirs env subdir cap out0 =
      List.foldl
        (fun out o =>
          match id o with
          | some b => git_str_join out b
          | none => out)
        (joinPathList [])
        [pathSource env gitExeName subdir,
         pathSource env gitCmdName subdir,
         regSource env.regUser subdir cap,
         regSource env.regMachine subdir cap] := by
  unfold git_win32__find_system_dirs
  cases pathSource env gitExeName subdir <;>
    cases pathSource env gitCmdName subdir <;>
    cases regSource env.regUser subdir cap <;>
    cases regSource env.regMachine subdir cap <;>
    rfl

/-- Claim C7: whatever the prior content of the caller-supplied output, the
aggregator's result is exactly the join, in invocation order, of its
successful sources — the first success replaces any prior content, later
successes append through the separator join, and with no success the output
is the cleared empty list. -/
theorem c7_system_dirs_join (env : SysEnv) (subdir : List Char) (cap : Nat)
    (out0 : List Char) :
    git_win32__find_system_dirs env subdir cap out0 =
      joinPathList (sysSources env subdir cap) := by
  rw [find_system_dirs_eq_foldl env subdir cap out0]
  rw [foldl_join_filterMap id _ [] (by simp) ?hne]
  · simp [sysSources]
  case hne =>
    intro t ht p hp
    simp only [id_eq] at hp
    simp only [List.mem_cons, List.not_mem_nil, or_false] at ht
    rcases ht with rfl | rfl | rfl | rfl
    · exact pathSource_ne_nil env gitExeName subdir p hp
    · exact pathSource_ne_nil env gitCmdName subdir p hp
    · exact regSource_ne_nil env.regUser subdir cap p hp
    · exact regSource_ne_nil env.regMachine subdir cap p hp

/-- A probed template only contributes non-empty strings. -/
theorem probeTemplate_ne_nil (lookup : List Char → Option (List Char))
    (fEx : List Char → Bool) (cap : Nat) (t : List Char) (b : List Char)
    (h : probeTemplate lookup fEx cap t = some b) : b ≠ [] := by
  unfold probeTemplate at h
  cases hx : git_win32__expand_path (some (expandTemplate lookup t)) cap with
  | none => rw [hx] at h; simp at h
  | some p =>
    rw [hx] at h
    by_cases hc : p.head? ≠ some '%' ∧ fEx p
    · simp only [if_pos hc] at h
      by_cases hb : win32_path_to_8 p = []
      · simp [hb] at h
      · simp only [if_neg hb] at h
        injection h with h1
        exact h1 ▸ hb
    · simp [if_neg hc] at h

/-- A probed template never contributes an entry that begins with `%`: the
`path16.path[0] != '%'` guard survives normalization, which maps `%` to
itself. -/
theorem probeTemplate_head (lookup : List Char → Option (List Char))
    (fEx : List Char → Bool) (cap : Nat) (t : List Char) (b : List Char)
    (h : probeTemplate lookup fEx cap t = some b) : b.head? ≠ some '%' := by
  unfold probeTemplate at h
  cases hx : git_win32__expand_path (some (expandTemplate lookup t)) cap with
  | none => rw [hx] at h; simp at h
  | some p =>
    rw [hx] at h
    by_cases hc : p.head? ≠ some '%' ∧ fEx p
    · simp only [if_pos hc] at h
      by_cases hb : win32_path_to_8 p = []
      · simp [hb] at h
      · simp only [if_neg hb] at h
        injection h with h1
        subst h1
        cases p with
        | nil => simp [win32_path_to_8, git_path_mkposix]
        | cons c r =>
          have hcp : c ≠ '%' := by
            intro hcc
            exact hc.1 (by simp [hcc])
          simp only [win32_path_to_8, git_path_mkposix, List.map_cons, List.head?_cons,
            ne_eq, Option.some.injEq]
          unfold posixChar
          by_cases hbs : c = '\\'
          · simp [hbs]
          · simp [hbs]
            exact hcp
    · simp [if_neg hc] at h

/-- A successful buffer-checked expansion returns the expansion itself. -/
theorem expand_path_some (s p : List Char) (cap : Nat)
    (h : git_win32__expand_path (some s) cap = some p) : p = s := by
  by_cases hf : s.length + 1 ≤ cap
  · simp only [git_win32__expand_path, expandEnvStrings, if_pos hf] at h
    rw [if_neg (by omega)] at h
    injection h with h1
    exact h1.symm
  · simp only [git_win32__expand_path, expandEnvStrings, if_neg hf] at h
    rw [if_pos (by omega)] at h
    injection h

/-- Claim C6 as amended: a template whose expansion still begins with `%`
(in particular one whose single leading variable reference is undefined)
contributes nothing, and consequently no entry of any Search Path List
produced by the Template Directory Prober (hence by `find_global_dirs`,
`find_xdg_dirs` and `find_programdata_dirs`) ever begins with an unexpanded
`%` token.  (An entry can still contain `%` in a non-leading position when a
later variable of a multi-variable template is undefined.) -/
theorem c6_amended (lookup : List Char → Option (List Char)) (fEx : List Char → Bool)
    (tmpls : List (List Char)) (cap : Nat) (out0 : List Char) :
    (∀ t, (expandTemplate lookup t).head? = some '%' →
      probeTemplate lookup fEx cap t = none) ∧
    ∃ bs, win32_find_existing_dirs lookup fEx tmpls cap out0 = joinPathList bs ∧
      ∀ b ∈ bs, b.head? ≠ some '%' := by
  constructor
  · intro t hh
    unfold probeTemplate
    cases hx : git_win32__expand_path (some (expandTemplate lookup t)) cap with
    | none => rfl
    | some p =>
      have hp : p = expandTemplate lookup t := expand_path_some _ p cap hx
      show (if p.head? ≠ some '%' ∧ fEx p = true then
        if win32_path_to_8 p = [] then none else some (win32_path_to_8 p)
        else none) = none
      rw [if_neg]
      intro hco
      exact hco.1 (by rw [hp]; exact hh)
  · refine ⟨tmpls.filterMap (probeTemplate lookup fEx cap), ?_, ?_⟩
    · unfold win32_find_existing_dirs
      have := foldl_join_filterMap (probeTemplate lookup fEx cap) tmpls [] (by simp)
        (fun t _ p hp => probeTemplate_ne_nil lookup fEx cap t p hp)
      simpa [git_str_clear, joinPathList] using this
    · intro b hb
      obtain ⟨t, _, hp⟩ := List.mem_filterMap.mp hb
      exact probeTemplate_head lookup fEx cap t b hp

/-- The environment of the C6 counterexample: `HOMEDRIVE` is defined as
`C:` but `HOMEPATH` is undefined. -/
def c6Lookup : List Char → Option (List Char) :=
  fun nm => if nm = "HOMEDRIVE".data then some "C:".data else none

/-- The filesystem of the C6 counterexample: the literal directory
`C:%HOMEPATH%\.config\git` happens to exist. -/
def c6Exists : List Char → Bool :=
  fun p => p = "C:%HOMEPATH%\\.config\\git".data

/-- Counterexample to claim C6: with `HOMEPATH` undefined the template
`%HOMEDRIVE%%HOMEPATH%\.config\git` still contributes — the guard only
checks the first character — so the returned list is the single entry
`C:%HOMEPATH%/.config/git`, which contains an unexpanded `%` token although
a variable referenced by the template is undefined. -/
theorem c6_counterexample :
    c6Lookup "HOMEPATH".data = none ∧
      git_win32__find_xdg_dirs c6Lookup c6Exists 260 [] =
        "C:%HOMEPATH%/.config/git".data ∧
      ';' ∉ "C:%HOMEPATH%/.config/git".data ∧
      '%' ∈ "C:%HOMEPATH%/.config/git".data := by
  refine ⟨by decide, by rfl, by decide, by decide⟩

/-- A character that does not occur in a list is not its head. -/
theorem head?_ne_of_not_mem (l : List Char) (c : Char) (h : c ∉ l) :
    l.head? ≠ some c := by
  cases l with
  | nil => simp
  | cons d r =>
    simp only [List.head?_cons, ne_eq, Option.some.injEq]
    intro hdc
    exact h (hdc ▸ List.mem_cons_self d r)

/-- The encoding of a well-formed entry is non-empty. -/
theorem encodeItem_ne_nil (it : PathItem) (hne : it.body ≠ []) :
    encodeItem it ≠ [] := by
  unfold encodeItem
  by_cases hq : it.quoted = true
  · simp [hq]
  · simp only [hq]
    simpa using hne

/-- The head of an encoded PATH is the head of its first entry's encoding. -/
theorem encodePath_cons_head (j : PathItem) (is' : List PathItem)
    (hne : j.body ≠ []) :
    (encodePath (j :: is')).head? = (encodeItem j).head? := by
  cases is' with
  | nil => rfl
  | cons k is'' =>
    show (encodeItem j ++ ';' :: encodePath (k :: is'')).head? = _
    exact head?_append_left _ _ (encodeItem_ne_nil j hne)

/-- The first character of a well-formed encoded PATH is never `;`, and
when that PATH starts with an unquoted entry it is not `"` either. -/
theorem encodePath_head_safe (buflen : Nat) (j : PathItem) (is' : List PathItem)
    (hj : itemWF buflen j) :
    ∀ c, (encodePath (j :: is')).head? = some c →
      c ≠ ';' ∧ (j.quoted = false → c ≠ '"') := by
  intro c hc
  obtain ⟨hne, hq, hsemi, -⟩ := hj
  rw [encodePath_cons_head j is' hne] at hc
  by_cases hjq : j.quoted = true
  · rw [encodeItem, if_pos hjq] at hc
    simp only [List.head?_cons, Option.some.injEq] at hc
    subst hc
    exact ⟨by decide, fun hf => absurd hjq (by simp [hf])⟩
  · have hjq' : j.quoted = false := by
      cases h : j.quoted
      · rfl
      · exact absurd h hjq
    rw [encodeItem, if_neg hjq] at hc
    constructor
    · intro hcs
      exact head?_ne_of_not_mem j.body ';' (hsemi hjq') (hcs ▸ hc)
    · intro _ hcq
      exact head?_ne_of_not_mem j.body '"' hq (hcq ▸ hc)

/-- Dropping the first entry preserves the adjacent-quoting condition. -/
theorem noConsecQuoted_tail (i : PathItem) (is : List PathItem)
    (h : noConsecQuoted (i :: is)) : noConsecQuoted is := by
  cases is with
  | nil => trivial
  | cons j r => exact h.2

/-- Skipping over a terminator or separator character. -/
theorem wpSkip_cons_of (c : Char) (r : List Char) (term : Char)
    (h : c = term ∨ c = ';') : wpSkip (c :: r) term = wpSkip r term := by
  show (if c = term ∨ c = ';' then wpSkip r term else c :: r) = wpSkip r term
  rw [if_pos h]

/-- One walker call on a well-formed encoded PATH whose quoted entries are
never adjacent returns the first entry's body and leaves exactly the
encoding of the remaining entries. -/
theorem walk_encode_step (buflen : Nat) (i : PathItem) (is : List PathItem)
    (hi : itemWF buflen i) (hall : ∀ it ∈ is, itemWF buflen it)
    (hcq : noConsecQuoted (i :: is)) :
    win32_walkpath (encodePath (i :: is)) buflen = (i.body, some (encodePath is)) := by
  obtain ⟨hne, hq, hsemi, hlen⟩ := hi
  have hb1 : 1 ≤ i.body.length := List.length_pos.mpr hne
  have hb0 : buflen ≠ 0 := by omega
  have hbudget : i.body.length ≤ buflen - 1 := by omega
  by_cases hqi : i.quoted = true
  · cases is with
    | nil =>
      have hshape : encodePath [i] = '"' :: (i.body ++ ['"']) := by
        show encodeItem i = _
        rw [encodeItem, if_pos hqi]
      rw [hshape]
      have hcpy := wpCopy_fits i.body ['"'] '"' (buflen - 1) hq hbudget (Or.inr rfl)
      rw [walkpath_spec ('"' :: (i.body ++ ['"'])) buflen hb0 '"' (i.body ++ ['"'])
        i.body ['"'] (wpTerm_quote _) hcpy]
      have hsk : wpSkip ['"'] '"' = [] := by
        rw [wpSkip_cons_of '"' [] '"' (Or.inl rfl)]
        rfl
      rw [hsk, if_pos (by simp)]
      rfl
    | cons j is' =>
      have hj := hall j (List.mem_cons_self j is')
      have hjq : j.quoted = false := by
        cases h : j.quoted
        · rfl
        · exact absurd ⟨hqi, h⟩ hcq.1
      have hshape : encodePath (i :: j :: is') =
          '"' :: (i.body ++ '"' :: ';' :: encodePath (j :: is')) := by
        show encodeItem i ++ ';' :: encodePath (j :: is') = _
        rw [encodeItem, if_pos hqi]
        simp
      rw [hshape]
      have hcpy := wpCopy_fits i.body ('"' :: ';' :: encodePath (j :: is')) '"'
        (buflen - 1) hq hbudget (Or.inr rfl)
      rw [walkpath_spec ('"' :: (i.body ++ '"' :: ';' :: encodePath (j :: is'))) buflen
        hb0 '"' (i.body ++ '"' :: ';' :: encodePath (j :: is')) i.body
        ('"' :: ';' :: encodePath (j :: is')) (wpTerm_quote _) hcpy]
      have hsk : wpSkip ('"' :: ';' :: encodePath (j :: is')) '"' =
          encodePath (j :: is') := by
        rw [wpSkip_cons_of '"' _ '"' (Or.inl rfl), wpSkip_cons_of ';' _ '"' (Or.inr rfl)]
        apply wpSkip_stop
        intro c hc
        have hsc := encodePath_head_safe buflen j is' hj c hc
        exact ⟨hsc.2 hjq, hsc.1⟩
      rw [hsk, if_pos (by simp only [List.length_cons, List.length_append]; omega)]
  · have hqi' : i.quoted = false := by
      cases h : i.quoted
      · rfl
      · exact absurd h hqi
    have hs : ';' ∉ i.body := hsemi hqi'
    have hhead : (i.body).head? ≠ some '"' := head?_ne_of_not_mem i.body '"' hq
    cases is with
    | nil =>
      have hshape : encodePath [i] = i.body := by
        show encodeItem i = _
        rw [encodeItem, if_neg hqi]
      rw [hshape]
      have hcpy : wpCopy i.body ';' (buflen - 1) = (i.body, []) := by
        have := wpCopy_fits i.body [] ';' (buflen - 1) hs hbudget (Or.inl rfl)
        simpa using this
      rw [walkpath_spec i.body buflen hb0 ';' i.body i.body []
        (wpTerm_no_quote _ hhead) hcpy]
      rw [show wpSkip [] ';' = [] from rfl,
        if_pos (by simp only [List.length_nil]; omega)]
      rfl
    | cons j is' =>
      have hj := hall j (List.mem_cons_self j is')
      have hshape : encodePath (i :: j :: is') =
          i.body ++ ';' :: encodePath (j :: is') := by
        show encodeItem i ++ ';' :: encodePath (j :: is') = _
        rw [encodeItem, if_neg hqi]
      rw [hshape]
      have hterm : wpTerm (i.body ++ ';' :: encodePath (j :: is')) =
          (';', i.body ++ ';' :: encodePath (j :: is')) := by
        apply wpTerm_no_quote
        rw [head?_append_left _ _ hne]
        exact hhead
      have hcpy := wpCopy_fits i.body (';' :: encodePath (j :: is')) ';'
        (buflen - 1) hs hbudget (Or.inr rfl)
      rw [walkpath_spec (i.body ++ ';' :: encodePath (j :: is')) buflen hb0 ';'
        (i.body ++ ';' :: encodePath (j :: is')) i.body
        (';' :: encodePath (j :: is')) hterm hcpy]
      have hsk : wpSkip (';' :: encodePath (j :: is')) ';' = encodePath (j :: is') := by
        rw [wpSkip_cons_of ';' _ ';' (Or.inl rfl)]
        apply wpSkip_stop
        intro c hc
        have hsc := encodePath_head_safe buflen j is' hj c hc
        exact ⟨hsc.1, hsc.1⟩
      rw [hsk, if_pos (by simp only [List.length_cons, List.length_append]; omega)]

/-- The Walker enumerates exactly the bodies of a well-formed encoded PATH
whose quoted entries are never adjacent. -/
theorem walkEntries_encode (buflen : Nat) :
    ∀ (items : List PathItem), (∀ it ∈ items, itemWF buflen it) →
      noConsecQuoted items →
      walkEntries (encodePath items) buflen = items.map (fun it => it.body) := by
  intro items
  induction items with
  | nil =>
    intro _ _
    show walkEntries [] buflen = []
    exact walkEntries_nil buflen
  | cons i is ih =>
    intro hall hcq
    have hi := hall i (List.mem_cons_self i is)
    have hall' : ∀ it ∈ is, itemWF buflen it :=
      fun it h => hall it (List.mem_cons_of_mem i h)
    rw [walkEntries_step (walk_encode_step buflen i is hi hall' hcq)]
    rw [ih hall' (noConsecQuoted_tail i is hcq)]
    rfl

/-- Outside quotes, a block free of quotes and separators is accumulated
verbatim by the naive split. -/
theorem naiveSplitAux_skip_false (b : List Char) :
    ∀ (t cur : List Char), '"' ∉ b → ';' ∉ b →
      naiveSplitAux (b ++ t) false cur = naiveSplitAux t false (b.reverse ++ cur) := by
  induction b with
  | nil => intro t cur _ _; simp
  | cons c b' ih =>
    intro t cur hq hs
    have hc1 : c ≠ '"' := fun h => hq (h ▸ List.mem_cons_self c b')
    have hc2 : c ≠ ';' := fun h => hs (h ▸ List.mem_cons_self c b')
    have hq' : '"' ∉ b' := fun h => hq (List.mem_cons_of_mem c h)
    have hs' : ';' ∉ b' := fun h => hs (List.mem_cons_of_mem c h)
    show (if c = '"' then naiveSplitAux (b' ++ t) (!false) cur
      else if c = ';' ∧ false = false then cur.reverse :: naiveSplitAux (b' ++ t) false []
      else naiveSplitAux (b' ++ t) false (c :: cur)) = _
    rw [if_neg hc1, if_neg (by simp [hc2])]
    rw [ih t (c :: cur) hq' hs']
    simp

/-- Inside quotes, a block free of quotes is accumulated verbatim by the
naive split, separators included. -/
theorem naiveSplitAux_skip_true (b : List Char) :
    ∀ (t cur : List Char), '"' ∉ b →
      naiveSplitAux (b ++ t) true cur = naiveSplitAux t true (b.reverse ++ cur) := by
  induction b with
  | nil => intro t cur _; simp
  | cons c b' ih =>
    intro t cur hq
    have hc1 : c ≠ '"' := fun h => hq (h ▸ List.mem_cons_self c b')
    have hq' : '"' ∉ b' := fun h => hq (List.mem_cons_of_mem c h)
    show (if c = '"' then naiveSplitAux (b' ++ t) (!true) cur
      else if c = ';' ∧ true = false then cur.reverse :: naiveSplitAux (b' ++ t) false []
      else naiveSplitAux (b' ++ t) true (c :: cur)) = _
    rw [if_neg hc1, if_neg (by simp)]
    rw [ih t (c :: cur) hq']
    simp

/-- The naive split enumerates exactly the bodies of a well-formed encoded
PATH (no adjacency condition is needed on the naive side). -/
theorem naiveSplit_encode (buflen : Nat) :
    ∀ (is : List PathItem) (i : PathItem) (cur : List Char),
      itemWF buflen i → (∀ it ∈ is, itemWF buflen it) →
      naiveSplitAux (encodePath (i :: is)) false cur =
        (cur.reverse ++ i.body) :: is.map (fun it => it.body) := by
  intro is
  induction is with
  | nil =>
    intro i cur hi _
    obtain ⟨hne, hq, hsemi, -⟩ := hi
    by_cases hqi : i.quoted = true
    · have hshape : encodePath [i] = '"' :: (i.body ++ ['"']) := by
        show encodeItem i = _
        rw [encodeItem, if_pos hqi]
      rw [hshape]
      show naiveSplitAux (i.body ++ ['"']) (!false) cur = _
      rw [show (!false) = true from rfl, naiveSplitAux_skip_true i.body ['"'] cur hq]
      show naiveSplitAux [] (!true) (i.body.reverse ++ cur) = _
      simp [naiveSplitAux]
    · have hqi' : i.quoted = false := by
        cases h : i.quoted
        · rfl
        · exact absurd h hqi
      have hshape : encodePath [i] = i.body := by
        show encodeItem i = _
        rw [encodeItem, if_neg hqi]
      rw [hshape]
      have := naiveSplitAux_skip_false i.body [] cur hq (hsemi hqi')
      simp only [List.append_nil] at this
      rw [this]
      simp [naiveSplitAux]
  | cons j is' ih =>
    intro i cur hi hall
    obtain ⟨hne, hq, hsemi, -⟩ := hi
    have hj := hall j (List.mem_cons_self j is')
    have hall' : ∀ it ∈ is', itemWF buflen it :=
      fun it h => hall it (List.mem_cons_of_mem j h)
    by_cases hqi : i.quoted = true
    · have hshape : encodePath (i :: j :: is') =
          '"' :: (i.body ++ '"' :: ';' :: encodePath (j :: is')) := by
        show encodeItem i ++ ';' :: encodePath (j :: is') = _
        rw [encodeItem, if_pos hqi]
        simp
      rw [hshape]
      show naiveSplitAux (i.body ++ '"' :: ';' :: encodePath (j :: is')) (!false) cur = _
      rw [show (!false) = true from rfl,
        naiveSplitAux_skip_true i.body _ cur hq]
      show naiveSplitAux (';' :: encodePath (j :: is')) (!true) (i.body.reverse ++ cur) = _
      show ((i.body.reverse ++ cur).reverse) :: naiveSplitAux (encodePath (j :: is')) false [] = _
      rw [ih j [] hj hall']
      simp
    · have hqi' : i.quoted = false := by
        cases h : i.quoted
        · rfl
        · exact absurd h hqi
      have hshape : encodePath (i :: j :: is') =
          i.body ++ ';' :: encodePath (j :: is') := by
        show encodeItem i ++ ';' :: encodePath (j :: is') = _
        rw [encodeItem, if_neg hqi]
      rw [hshape]
      rw [naiveSplitAux_skip_false i.body _ cur hq (hsemi hqi')]
      show ((i.body.reverse ++ cur).reverse) :: naiveSplitAux (encodePath (j :: is')) false [] = _
      rw [ih j [] hj hall']
      simp

/-- Counterexample to claim C2: the PATH `"a";"b"` is well-formed (two
well-formed quoted entries joined by one separator), yet the walker does not
yield what the naive split yields — after a quoted entry the skip loop also
swallows the opening quote of a directly following quoted entry, so the
second entry is read unquoted and keeps its closing quote. -/
theorem c2_counterexample :
    itemWF 259 ⟨true, ['a']⟩ ∧ itemWF 259 ⟨true, ['b']⟩ ∧
      encodePath [⟨true, ['a']⟩, ⟨true, ['b']⟩] = "\"a\";\"b\"".data ∧
      walkEntries "\"a\";\"b\"".data 259 = [['a'], ['b', '"']] ∧
      naiveSplit "\"a\";\"b\"".data = [['a'], ['b']] ∧
      walkEntries "\"a\";\"b\"".data 259 ≠ naiveSplit "\"a\";\"b\"".data := by
  refine ⟨by decide, by decide, by decide, by decide, by decide, by decide⟩

/-- Claim C2 as amended: for every well-formed PATH (a non-empty sequence of
well-formed entries, each fitting the destination buffer) in which no quoted
entry is immediately followed by another quoted entry, repeated walker calls
until the exhausted sentinel yield exactly the entries of the naive split on
unquoted `;` with one level of quoting, quotes stripped. -/
theorem c2_amended (items : List PathItem) (buflen : Nat) (hne : items ≠ [])
    (hall : ∀ it ∈ items, itemWF buflen it) (hcq : noConsecQuoted items) :
    walkEntries (encodePath items) buflen = naiveSplit (encodePath items) := by
  obtain ⟨i, is, rfl⟩ := List.exists_cons_of_ne_nil hne
  rw [walkEntries_encode buflen (i :: is) hall hcq]
  unfold naiveSplit
  rw [naiveSplit_encode buflen is i [] (hall i (List.mem_cons_self i is))
    (fun it h => hall it (List.mem_cons_of_mem i h))]
  simp

/-- Witness for C2 (amended) on a concrete well-formed PATH mixing an
unquoted entry with a quoted entry whose body contains `;`. -/
theorem c2_witness :
    walkEntries (encodePath [⟨false, "C:\\A".data⟩, ⟨true, "C:\\B;D".data⟩]) 259 =
      naiveSplit (encodePath [⟨false, "C:\\A".data⟩, ⟨true, "C:\\B;D".data⟩]) :=
  c2_amended [⟨false, "C:\\A".data⟩, ⟨true, "C:\\B;D".data⟩] 259
    (by decide) (by decide) (by decide)
